import Mathlib

/-!
Verification of `composer/distributed/fsdp2_utils.py`.

The Python module operates over `torch.nn.Module` trees.  We embed the part
of the `nn.Module` interface the code uses:

* a module owns a finite, ordered list of directly-registered parameters
  (`module._parameters`, surfaced by `named_parameters(recurse=False)`), and
  an ordered list of named child modules (`named_children`);
* parameters are compared by object identity (`nn.Parameter` hashing is
  id-based), which we model by giving every parameter a numeric identity
  `pid : Nat`; two occurrences of the same `pid` model two aliases of one
  parameter object (weight tying);
* modules are likewise compared by object identity, modelled by `mid : Nat`.

`Module.paramIds` models `module.parameters()` (recursive, preorder:
own parameters first, then children in order).  Deduplication performed by
PyTorch (`remove_duplicate=True`) only affects enumeration order/multiplicity
and is modelled where it matters (named-parameter enumeration).
-/

namespace FSDP2

mutual

/-- A `torch.nn.Module`: identity, directly owned named parameters
(registration order), named children (registration order). -/
inductive Module : Type where
  | node (mid : Nat) (ownNamed : List (String × Nat)) (children : Children)
  deriving DecidableEq

/-- The ordered named children of a module. -/
inductive Children : Type where
  | nil : Children
  | cons (name : String) (child : Module) (rest : Children) : Children
  deriving DecidableEq

end

/-- Object identity of a module (`id(module)` in Python). -/
def Module.mid : Module → Nat
  | .node i _ _ => i

/-- The module's directly registered `(name, parameter)` pairs
(`module._parameters.items()`). -/
def Module.ownNamed : Module → List (String × Nat)
  | .node _ ps _ => ps

/-- The module's children record. -/
def Module.childrenRec : Module → Children
  | .node _ _ c => c

/-- Parameter ids registered directly on the module, in registration order
(`module.parameters(recurse=False)` before deduplication). -/
def Module.ownParamIds (m : Module) : List Nat :=
  m.ownNamed.map Prod.snd

mutual

/-- `module.parameters()` (recursive): preorder enumeration of parameter ids,
own parameters first, then each child's parameters in order.  No
deduplication; all uses below are membership/emptiness tests, for which
PyTorch's `remove_duplicate=True` is irrelevant. -/
def Module.paramIds : Module → List Nat
  | .node _ ps c => ps.map Prod.snd ++ Children.paramIds c

/-- Parameters of a list of children, in order. -/
def Children.paramIds : Children → List Nat
  | .nil => []
  | .cons _ m rest => m.paramIds ++ Children.paramIds rest

end

/-!
## Tying Classifier: `get_standalone_and_tied_modules`

```python
seen_params, tied_params = set(), set()
for module in modules:
    for param in module.parameters():
        if param in seen_params:
            tied_params.add(param)
    for param in module.parameters():
        seen_params.add(param)
modules_with_tied_params = {m for m in modules if any(p in tied_params for p in m.parameters())}
modules_to_shard = [m for m in modules
                    if m not in modules_with_tied_params
                    and next(m.parameters(), None) is not None]
return modules_to_shard, modules_with_tied_params
```

Python sets over parameter/module objects become `Finset Nat` over the
identity tokens (`pid`/`mid`).
-/

/-- One iteration of the tie-detection loop: given `(seen_params, tied_params)`
process one module: parameters already seen become tied, then all of the
module's parameters are added to `seen_params` (module-granularity update). -/
def tieStep (acc : Finset Nat × Finset Nat) (m : Module) : Finset Nat × Finset Nat :=
  (acc.1 ∪ m.paramIds.toFinset, acc.2 ∪ (m.paramIds.filter (· ∈ acc.1)).toFinset)

/-- The `tied_params` set after the detection pass over the whole list. -/
def tiedParams (modules : List Module) : Finset Nat :=
  (modules.foldl tieStep (∅, ∅)).2

/-- `modules_with_tied_params`: the set (of module identities) of input modules
owning at least one tied parameter. -/
def modulesWithTiedParams (modules : List Module) : Finset Nat :=
  ((modules.filter fun m => m.paramIds.any (· ∈ tiedParams modules)).map Module.mid).toFinset

/-- `get_standalone_and_tied_modules`: the standalone list (input order
preserved) and the tied module set. -/
def get_standalone_and_tied_modules (modules : List Module) :
    List Module × Finset Nat :=
  (modules.filter fun m =>
      m.mid ∉ modulesWithTiedParams modules ∧ m.paramIds ≠ [],
   modulesWithTiedParams modules)

/-- A parameter shared between two distinct positions of the candidate list:
the tie-detection pass flags exactly these parameters. -/
def SharedPair (modules : List Module) (p : Nat) : Prop :=
  ∃ m1 m2, [m1, m2].Sublist modules ∧ p ∈ m1.paramIds ∧ p ∈ m2.paramIds

/-- `m` (as an entry of the candidate list) shares some parameter with an
entry at a different position. -/
def SharesWithOther (modules : List Module) (m : Module) : Prop :=
  ∃ m', ([m, m'].Sublist modules ∨ [m', m].Sublist modules) ∧
    ∃ p, p ∈ m.paramIds ∧ p ∈ m'.paramIds

mutual

/-- All modules of the (sub)tree rooted at `m`, itself included
(preorder, like `module.modules()`). -/
def Module.allModules : Module → List Module
  | .node i ps c => .node i ps c :: Children.allModulesC c

/-- All modules appearing in a children record. -/
def Children.allModulesC : Children → List Module
  | .nil => []
  | .cons _ m rest => m.allModules ++ Children.allModulesC rest

end

/-- Identities of all modules of the tree. -/
def Module.allMids (m : Module) : List Nat :=
  m.allModules.map Module.mid

/-- `d` is a proper descendant of `anc`: it occurs strictly below `anc`. -/
def ProperDescendant (d anc : Module) : Prop :=
  d ∈ Children.allModulesC anc.childrenRec

instance (d anc : Module) : Decidable (ProperDescendant d anc) :=
  inferInstanceAs (Decidable (d ∈ Children.allModulesC anc.childrenRec))

mutual

/-- Number of modules in the tree (used to separate a proper descendant from
its ancestor). -/
def Module.sz : Module → Nat
  | .node _ _ c => 1 + Children.szC c

/-- Number of modules in a children record. -/
def Children.szC : Children → Nat
  | .nil => 0
  | .cons _ m rest => m.sz + Children.szC rest

end

/-!
## Tying Consistency Guard: `_get_param_tying_groups` / `check_param_tying`

```python
param_object_to_fqns: dict[nn.Parameter, set[str]] = {}
def _recursive_get_params(module, prefix=''):
    for name, param in module.named_parameters(recurse=False):
        fqn = f'{prefix}.{name}' if prefix else name
        param_object_to_fqns.setdefault(param, set()).add(fqn)
    for child_name, child in module.named_children():
        _recursive_get_params(child, f'{prefix}.{child_name}' if prefix else child_name)
_recursive_get_params(model)
return list(param_object_to_fqns.values())
```

`named_parameters(recurse=False)` deduplicates repeated registrations of the
same parameter object inside one module (PyTorch `remove_duplicate=True`,
first name wins); the manual recursion performs no cross-module
deduplication.  Python's insertion-ordered `dict` keyed by parameter object
becomes an association list `List (Nat × List String)`; the `set[str]` of
FQNs becomes a duplicate-free insertion-ordered list.
-/

/-- Add a string to a Python-set-like list (no-op when already present). -/
def insertStr (l : List String) (s : String) : List String :=
  if s ∈ l then l else l ++ [s]

/-- `param_object_to_fqns.setdefault(p, set()).add(fqn)` on an
insertion-ordered association list. -/
def addFqn : List (Nat × List String) → Nat → String → List (Nat × List String)
  | [], p, fqn => [(p, [fqn])]
  | (q, fs) :: rest, p, fqn =>
    if q = p then (q, insertStr fs fqn) :: rest else (q, fs) :: addFqn rest p fqn

/-- `module.named_parameters(recurse=False)`: the module's own registrations
with duplicate parameter objects removed (first name wins). -/
def dedupOwn : List (String × Nat) → List Nat → List (String × Nat)
  | [], _ => []
  | (n, p) :: rest, memo =>
    if p ∈ memo then dedupOwn rest memo else (n, p) :: dedupOwn rest (p :: memo)

/-- `f'{prefix}.{name}' if prefix else name`. -/
def joinName (pre name : String) : String :=
  if pre = "" then name else pre ++ "." ++ name

mutual

/-- `_recursive_get_params`: record every FQN of every parameter, walking the
whole tree (own registrations first, then children in order). -/
def Module.collectTying : Module → String → List (Nat × List String) → List (Nat × List String)
  | .node _ ps c, pre, acc =>
    Children.collectTying c pre
      ((dedupOwn ps []).foldl (fun a np => addFqn a np.2 (joinName pre np.1)) acc)

/-- `_recursive_get_params` over the children of a module. -/
def Children.collectTying : Children → String → List (Nat × List String) → List (Nat × List String)
  | .nil, _, acc => acc
  | .cons name m rest, pre, acc =>
    Children.collectTying rest pre (m.collectTying (joinName pre name) acc)

end

/-- The parameter-to-FQNs map of the whole model. -/
def paramTyingGroups (model : Module) : List (Nat × List String) :=
  model.collectTying "" []

/-- `_get_param_tying_groups`: the FQN groups, parameter identities dropped
(`list(param_object_to_fqns.values())`). -/
def Module.tyingGroups (model : Module) : List (List String) :=
  (paramTyingGroups model).map Prod.snd

/-- Insert into a list sorted by `le`. -/
def insSorted (le : α → α → Bool) (a : α) : List α → List α
  | [] => [a]
  | b :: l => if le a b then a :: b :: l else b :: insSorted le a l

/-- Insertion sort by `le` (models Python `sorted` for a total `le`). -/
def sortWith (le : α → α → Bool) (l : List α) : List α :=
  l.foldr (insSorted le) []

/-- Strict code-point comparison of characters (Python character order). -/
def charLt (a b : Char) : Bool :=
  decide (a.toNat < b.toNat)

/-- Strict lexicographic comparison of character lists (Python string `<`). -/
def strLtL : List Char → List Char → Bool
  | [], [] => false
  | [], _ :: _ => true
  | _ :: _, [] => false
  | a :: l, b :: r => if charLt a b then true else if charLt b a then false else strLtL l r

/-- Python string comparison (total: `a ≤ b ↔ ¬ b < a`). -/
def strLe (a b : String) : Bool :=
  !(strLtL b.data a.data)

/-- Strict lexicographic comparison of lists of strings (Python list `<`). -/
def listStrLt : List String → List String → Bool
  | [], [] => false
  | [], _ :: _ => true
  | _ :: _, [] => false
  | a :: l, b :: r =>
    if strLtL a.data b.data then true
    else if strLtL b.data a.data then false
    else listStrLt l r

/-- Python comparison of lists of strings (total). -/
def listStrLe (x y : List String) : Bool :=
  !(listStrLt y x)

/-- `sorted([sorted(group) for group in tying_groups])`: the canonical,
order-independent form compared by the guard. -/
def canonGroups (model : Module) : List (List String) :=
  sortWith listStrLe (model.tyingGroups.map (sortWith strLe))

/-- All FQNs recorded by the tying walk (union of the groups). -/
def Module.allFqns (model : Module) : List String :=
  model.tyingGroups.flatten

/-- What the caller of `check_param_tying` observes on exit. -/
inductive GuardOutcome (ε : Type) where
  | ok
  | bodyError (e : ε)
  | tyingError (preGroups postGroups : List (List String))
  deriving DecidableEq

/-- `check_param_tying`: compute the canonical groups, run the wrapped block,
recompute in the `finally` path and compare.  The wrapped transformation is a
`body` that returns the model's final state together with an optional raised
error.  Per Python semantics, a `RuntimeError` raised in the `finally` block
supersedes an in-flight exception from the block, so a detected group
difference is what the caller observes even when the body also raised. -/
def check_param_tying {ε : Type} (model : Module) (body : Module → Option ε × Module) :
    GuardOutcome ε × Module :=
  let sortedPre := canonGroups model
  let res := body model
  let sortedPost := canonGroups res.2
  if sortedPre ≠ sortedPost then (.tyingError sortedPre sortedPost, res.2)
  else
    match res.1 with
    | some e => (.bodyError e, res.2)
    | none => (.ok, res.2)

/-!
## Sharing Validator: `legalize_param_sharing_between_modules`

```python
modules_to_shard_params = {p for m in modules_to_shard for p in m.parameters()}
visited_modules = set()
modules_to_shard_set = set(modules_to_shard)
def _check_param_sharing(module):
    if module in modules_to_shard_set or module in visited_modules:
        return
    visited_modules.add(module)
    for param in module.parameters(recurse=False):
        if param in modules_to_shard_params:
            raise ValueError(f"... module '{module}' ...")
    for child in module.children():
        _check_param_sharing(child)
_check_param_sharing(model)
```

The raised error names the offending module; we return its identity.
-/

/-- The set of parameters owned (directly or transitively) by the designated
modules. -/
def shardParamSet (modulesToShard : List Module) : Finset Nat :=
  modulesToShard.foldl (fun s m => s ∪ m.paramIds.toFinset) ∅

mutual

/-- `_check_param_sharing`, threading the `visited_modules` set; an error
carries the identity of the offending module. -/
def checkParamSharing (desig : List Nat) (sp : Finset Nat) :
    Module → List Nat → Except Nat (List Nat)
  | .node i ps c, visited =>
    if i ∈ desig ∨ i ∈ visited then .ok visited
    else if (ps.map Prod.snd).any (· ∈ sp) then .error i
    else Children.checkParamSharing desig sp c (i :: visited)

/-- `_check_param_sharing` over the children, left to right. -/
def Children.checkParamSharing (desig : List Nat) (sp : Finset Nat) :
    Children → List Nat → Except Nat (List Nat)
  | .nil, visited => .ok visited
  | .cons _ m rest, visited =>
    match checkParamSharing desig sp m visited with
    | .error i => .error i
    | .ok visited' => Children.checkParamSharing desig sp rest visited'

end

/-- `legalize_param_sharing_between_modules`: passes silently (`.ok ()`) or
raises naming the offending module (`.error mid`). -/
def legalize_param_sharing_between_modules (model : Module) (modulesToShard : List Module) :
    Except Nat Unit :=
  match checkParamSharing (modulesToShard.map Module.mid) (shardParamSet modulesToShard) model [] with
  | .ok _ => .ok ()
  | .error i => .error i

mutual

/-- The modules reachable from `m` by descending through children without
entering a designated module (the modules the validator's DFS examines,
ignoring revisit pruning). -/
def Module.reachAvoid (desig : List Nat) : Module → List Module
  | .node i ps c =>
    if i ∈ desig then [] else .node i ps c :: Children.reachAvoidC desig c

/-- `Module.reachAvoid` over a children record. -/
def Children.reachAvoidC (desig : List Nat) : Children → List Module
  | .nil => []
  | .cons _ m rest => m.reachAvoid desig ++ Children.reachAvoidC desig rest

end

/-- Some module among `ms` (necessarily non-designated, for the lists the
validator examines) directly owns a parameter of the designated set. -/
def OffenseWithin (desig : List Nat) (sp : Finset Nat) (ms : List Module) : Prop :=
  ∃ mm ∈ ms, mm.mid ∉ desig ∧ ∃ p ∈ mm.ownParamIds, p ∈ sp

/-- Stated from the spec's words (§8), for comparison with the code: some
parameter is reachable — via recursive parameter enumeration — both from a
designated module and from a module of the tree that is not designated. -/
def CrossReachable (model : Module) (modulesToShard : List Module) : Prop :=
  ∃ p, (∃ md ∈ modulesToShard, p ∈ md.paramIds) ∧
    (∃ m ∈ model.allModules, m.mid ∉ modulesToShard.map Module.mid ∧ p ∈ m.paramIds)

/-!
## Optimizer Remapper: `update_optimizer_modules`

An optimizer parameter group is a dict with a `params` key (an ordered list of
parameter references) plus arbitrary hyperparameter keys; the optimizer also
holds an identity-keyed per-parameter state store.  `add_param_group` appends
one group.
-/

/-- One optimizer parameter group: the `params` entry and the remaining
(hyperparameter) key/value pairs. -/
structure ParamGroup where
  params : List Nat
  opts : List (String × Nat)
  deriving DecidableEq

/-- A `torch.optim.Optimizer`: ordered parameter groups and the per-parameter
state mapping (keyed by parameter identity). -/
structure Optimizer where
  param_groups : List ParamGroup
  state : List (Nat × Nat)
  deriving DecidableEq

/-- `optimizer.add_param_group(group)`: appends the group. -/
def Optimizer.add_param_group (opt : Optimizer) (g : ParamGroup) : Optimizer :=
  { opt with param_groups := opt.param_groups ++ [g] }

mutual

/-- `named_parameters` body for the module's own registrations under a given
name prefix, threading the deduplication memo. -/
def namedOwn : List (String × Nat) → String → List Nat → List (String × Nat) × List Nat
  | [], _, memo => ([], memo)
  | (n, p) :: rest, pre, memo =>
    if p ∈ memo then namedOwn rest pre memo
    else
      let r := namedOwn rest pre (p :: memo)
      ((joinName pre n, p) :: r.1, r.2)

end

mutual

/-- `model.named_parameters(recurse=True)`: preorder FQN enumeration with a
single memo deduplicating repeated parameter objects (first FQN wins). -/
def Module.namedParamsMemo : Module → String → List Nat → List (String × Nat) × List Nat
  | .node _ ps c, pre, memo =>
    let own := namedOwn ps pre memo
    let rest := Children.namedParamsMemo c pre own.2
    (own.1 ++ rest.1, rest.2)

/-- `named_parameters` over the children, left to right. -/
def Children.namedParamsMemo : Children → String → List Nat → List (String × Nat) × List Nat
  | .nil, _, memo => ([], memo)
  | .cons name m rest, pre, memo =>
    let l1 := m.namedParamsMemo (joinName pre name) memo
    let l2 := Children.namedParamsMemo rest pre l1.2
    (l1.1 ++ l2.1, l2.2)

end

/-- `dict(model.named_parameters(recurse=True))` as an association list from
FQN to parameter (FQNs are distinct, so first-match lookup is the dict). -/
def Module.namedParameters (model : Module) : List (String × Nat) :=
  (model.namedParamsMemo "" []).1

/-- The error raised when parameter references fail to resolve, carrying the
aggregated `unseen_params` tags. -/
inductive UpdateError where
  | unresolved (unseen : List String)
  deriving DecidableEq

/-- Resolution of one optimizer parameter reference (the body of the
collection loop): absent from `orig_param_to_name` yields the identity-based
`optimizer.param_id.` tag; a name absent from the post-shard model yields the
name-based `model.param_name.` tag; otherwise the new parameter. -/
def classifyParam (nameToSharded : List (String × Nat)) (orig : List (Nat × String))
    (p : Nat) : Except String Nat :=
  match orig.lookup p with
  | none => .error ("optimizer.param_id." ++ toString p)
  | some name =>
    match nameToSharded.lookup name with
    | none => .error ("model.param_name." ++ name)
    | some q => .ok q

/-- Every parameter reference of every group, groups in order, references in
order within each group. -/
def Optimizer.allParams (opt : Optimizer) : List Nat :=
  opt.param_groups.flatMap ParamGroup.params

/-- The collection loop over all groups: accumulate the `unseen_params` set
(a Python `set` of tag strings, here an insertion-ordered duplicate-free
list). -/
def collectUnseen (nameToSharded : List (String × Nat)) (orig : List (Nat × String))
    (params : List Nat) : List String :=
  params.foldl
    (fun acc p =>
      match classifyParam nameToSharded orig p with
      | .error s => insertStr acc s
      | .ok _ => acc) []

/-- `update_optimizer_modules`.  Returns the optionally raised error together
with the optimizer's final state: the state store is cleared up front whenever
non-empty (with a warning), the `unseen_params` set is accumulated over all
groups, and only when it is empty are the groups rebuilt (clear, then
`add_param_group` each new group in order).  On the success path
`old_to_new[param]` is total, so the `.getD p` default is never used. -/
def update_optimizer_modules (opt : Optimizer) (model : Module)
    (orig : List (Nat × String)) : Option UpdateError × Optimizer :=
  let opt1 := if opt.state = [] then opt else { opt with state := [] }
  let nameToSharded := model.namedParameters
  let unseen := collectUnseen nameToSharded orig opt.allParams
  if unseen ≠ [] then (some (.unresolved unseen), opt1)
  else
    let newGroups := opt1.param_groups.map fun g =>
      { params := g.params.map fun p => ((classifyParam nameToSharded orig p).toOption).getD p,
        opts := g.opts : ParamGroup }
    (none, newGroups.foldl Optimizer.add_param_group { opt1 with param_groups := [] })

/-!
## Wrap-Policy Generator: `generate_default_policy`

The policy's per-module decision function (`lambda_fn`).  A module either has
the legacy `_fsdp_wrap` attribute or not; the parent model optionally exposes
`fsdp_wrap_fn`, returning a bool or a configuration dict.  `FSDP2Config` is
defined in `composer/utils/parallelism.py`, outside the provided sources.
-/

/-- The slice of an `nn.Module` the wrap policy inspects: identity and the
optional legacy `_fsdp_wrap` attribute. -/
structure PolicyModule where
  pmid : Nat
  fsdpWrapAttr : Option Bool
  deriving DecidableEq

/-- `Union[bool, dict[str, Any]]` returned by a user `fsdp_wrap_fn`. -/
inductive WrapFnRet where
  | asBool (b : Bool)
  | asDict (kvs : List (String × Nat))

/-- `lambda_fn`'s normal return value (`Union[bool, dict]`). -/
inductive LambdaRet where
  | wrapBool (b : Bool)
  | wrapDict (kvs : List (String × Nat))
  deriving DecidableEq

/-- The configuration error raised by `lambda_fn`:
`ValueError(f'Invalid FSDP2 config keys in wrap_fn return value. Valid keys
are: {valid_keys}')`.  The only dynamic data interpolated into the message is
the valid-key set. -/
inductive PolicyError where
  | invalidConfigKeys (validKeys : List String)
  deriving DecidableEq

/-- Modelled from the spec: `FSDP2Config.__annotations__.keys()`.
`FSDP2Config` (in `composer.utils.parallelism`) is not among the provided
sources; spec §4.5 describes the recognized sharding-configuration options as
"{reshard_after_forward: ..., mixed_precision_policy: ..., ...}". -/
def FSDP2ConfigAnnotationKeys : List String :=
  ["reshard_after_forward", "mixed_precision_policy"]

/-- The `lambda_fn` closed over `parent_model` (and its optional
`fsdp_wrap_fn`), evaluated on one module. -/
def lambda_fn (parent : PolicyModule) (wrapFn : Option (PolicyModule → WrapFnRet))
    (cur : PolicyModule) : Except PolicyError LambdaRet :=
  match cur.fsdpWrapAttr with
  | some b => .ok (.wrapBool b)
  | none =>
    match wrapFn with
    | some f =>
      if cur.pmid = parent.pmid then .ok (.wrapBool true)
      else
        match f cur with
        | .asBool v => .ok (.wrapBool v)
        | .asDict kvs =>
          if (kvs.map Prod.fst).all (fun k => k ∈ FSDP2ConfigAnnotationKeys) then
            .ok (.wrapDict kvs)
          else .error (.invalidConfigKeys FSDP2ConfigAnnotationKeys)
    | none => .ok (.wrapBool (cur.pmid = parent.pmid))

/-- `generate_default_policy`: the `CustomPolicy` is its `lambda_fn`. -/
def generate_default_policy (parent : PolicyModule)
    (wrapFn : Option (PolicyModule → WrapFnRet)) :
    PolicyModule → Except PolicyError LambdaRet :=
  lambda_fn parent wrapFn

/-!
## Concrete instances used by the round-trip properties
-/

/-- Append a named child at the end of a children record. -/
def Children.snoc : Children → String → Module → Children
  | .nil, n, m => .cons n m .nil
  | .cons n0 m0 rest, n, m => .cons n0 m0 (rest.snoc n m)

/-- The tied example of spec §8: `M.a.weight` and `M.b.weight` hold the same
parameter object (identity 10). -/
def tiedModel : Module :=
  .node 0 []
    (.cons "a" (.node 1 [("weight", 10)] .nil)
      (.cons "b" (.node 2 [("weight", 10)] .nil) .nil))

/-- A transformation adding a third alias `c.weight` of the tied parameter
(identity 10) as a new child, changing that tying group's FQN set. -/
def withThirdAlias : Module → Module
  | .node i ps c => .node i ps (c.snoc "c" (.node 3 [("weight", 10)] .nil))

end FSDP2

/-!
# Theorems
-/

namespace FSDP2

/-- Inserting into a sorted list permutes consing. -/
theorem insSorted_perm (le : α → α → Bool) (a : α) (l : List α) :
    List.Perm (insSorted le a l) (a :: l) := by
  induction l with
  | nil => simp [insSorted]
  | cons b t ih =>
    simp only [insSorted]
    split
    · exact List.Perm.refl _
    · exact (ih.cons b).trans (List.Perm.swap a b t)

/-- Insertion sort permutes its input (`sorted` reorders, never edits). -/
theorem sortWith_perm (le : α → α → Bool) (l : List α) : List.Perm (sortWith le l) l := by
  induction l with
  | nil => exact .rfl
  | cons a t ih => exact (insSorted_perm le a (sortWith le t)).trans (ih.cons a)

/-- Flattening respects permutation of the outer list. -/
theorem flatten_perm_of_perm {l₁ l₂ : List (List α)} (h : List.Perm l₁ l₂) :
    List.Perm l₁.flatten l₂.flatten := by
  induction h with
  | nil => exact .rfl
  | cons x _ ih => exact ih.append_left x
  | swap x y t =>
    simp only [List.flatten_cons]
    have h1 : List.Perm ((y ++ x) ++ t.flatten) ((x ++ y) ++ t.flatten) :=
      (List.perm_append_comm).append_right _
    rw [List.append_assoc, List.append_assoc] at h1
    exact h1
  | trans _ _ ih1 ih2 => exact ih1.trans ih2

/-- Sorting each inner list preserves the flattened contents. -/
theorem flatten_map_sortWith_perm (le : α → α → Bool) (G : List (List α)) :
    List.Perm (G.map (sortWith le)).flatten G.flatten := by
  induction G with
  | nil => exact .rfl
  | cons g t ih =>
    simp only [List.map_cons, List.flatten_cons]
    exact (sortWith_perm le g).append ih

/-- The canonical form holds exactly the FQNs recorded by the tying walk. -/
theorem canonGroups_flatten_perm (m : Module) :
    List.Perm (canonGroups m).flatten m.allFqns :=
  (flatten_perm_of_perm (sortWith_perm listStrLe _)).trans
    (flatten_map_sortWith_perm strLe m.tyingGroups)

/-- Equal canonical forms record the same FQNs. -/
theorem mem_allFqns_of_canonGroups_eq {m m' : Module}
    (h : canonGroups m = canonGroups m') {c : String} (hc : c ∈ m.allFqns) :
    c ∈ m'.allFqns := by
  have h1 := (canonGroups_flatten_perm m).mem_iff (a := c)
  have h2 := (canonGroups_flatten_perm m').mem_iff (a := c)
  rw [← h1, h, h2] at hc
  exact hc

/-- C4: when the wrapped block completes normally, `check_param_tying` raises
iff the canonical tying-group collections computed before and after the scope
differ, and the raised error carries both snapshots; a no-op transformation
never raises; a transformation introducing an FQN the pre-scope walk did not
record (in particular, one adding a third alias to a tied parameter's group)
always raises — shown in general for any fresh FQN, and concretely for the
tied pair `a.weight`/`b.weight` gaining the alias `c.weight`. -/
theorem c4_guard_raises_iff_canonical_groups_differ :
    (∀ (m : Module) (f : Module → Module),
      ((check_param_tying m fun x => ((none : Option Unit), f x)).1 =
          GuardOutcome.tyingError (canonGroups m) (canonGroups (f m)) ↔
        canonGroups m ≠ canonGroups (f m))) ∧
    (∀ m : Module,
      (check_param_tying m fun x => ((none : Option Unit), x)).1 = GuardOutcome.ok) ∧
    (∀ (m : Module) (f : Module → Module) (c : String),
      c ∉ m.allFqns → c ∈ (f m).allFqns →
      (check_param_tying m fun x => ((none : Option Unit), f x)).1 =
        GuardOutcome.tyingError (canonGroups m) (canonGroups (f m))) ∧
    ((check_param_tying tiedModel fun x => ((none : Option Unit), withThirdAlias x)).1 =
      GuardOutcome.tyingError [["a.weight", "b.weight"]]
        [["a.weight", "b.weight", "c.weight"]]) := by
  refine ⟨fun m f => ?_, fun m => ?_, fun m f c hnot hmem => ?_, by decide⟩
  · by_cases h : canonGroups m = canonGroups (f m) <;>
      simp [check_param_tying, h]
  · simp [check_param_tying]
  · have h : canonGroups m ≠ canonGroups (f m) := by
      intro h
      exact hnot (mem_allFqns_of_canonGroups_eq h.symm hmem)
    simp [check_param_tying, h]

/-- C4 witness: the general fresh-FQN conjunct applied to the tied example
model and the third-alias transformation. -/
theorem c4_witness :
    (check_param_tying tiedModel fun x => ((none : Option Unit), withThirdAlias x)).1 =
      GuardOutcome.tyingError (canonGroups tiedModel) (canonGroups (withThirdAlias tiedModel)) :=
  c4_guard_raises_iff_canonical_groups_differ.2.2.1 tiedModel withThirdAlias
    "c.weight" (by decide) (by decide)

/-- C9: the guard's verdict is a function of the canonical FQN-group
collections only: for a normally-completing transformation it passes iff the
canonical collections agree; adding a parameter — even an untied one — or
renaming a parameter changes the collection and raises; exchanging which
parameter objects carry which FQN sets leaves the collection unchanged, so a
genuinely different model passes. -/
theorem c9_guard_verdict_depends_only_on_canonical_groups :
    (∀ (m : Module) (f : Module → Module),
      ((check_param_tying m fun x => ((none : Option Unit), f x)).1 = GuardOutcome.ok ↔
        canonGroups (f m) = canonGroups m)) ∧
    ((check_param_tying (Module.node 0 [("a", 1)] .nil)
        (fun _ => ((none : Option Unit), Module.node 0 [("a", 1), ("b", 2)] .nil))).1 =
      GuardOutcome.tyingError [["a"]] [["a"], ["b"]]) ∧
    ((check_param_tying (Module.node 0 [("a", 1)] .nil)
        (fun _ => ((none : Option Unit), Module.node 0 [("c", 1)] .nil))).1 =
      GuardOutcome.tyingError [["a"]] [["c"]]) ∧
    ((check_param_tying (Module.node 0 [("a", 1), ("b", 2)] .nil)
        (fun _ => ((none : Option Unit), Module.node 0 [("a", 2), ("b", 1)] .nil))).1 =
      GuardOutcome.ok) ∧
    (Module.node 0 [("a", 2), ("b", 1)] .nil ≠ Module.node 0 [("a", 1), ("b", 2)] .nil) := by
  refine ⟨fun m f => ?_, by decide, by decide, by decide, by decide⟩
  by_cases h : canonGroups m = canonGroups (f m) <;>
    simp [check_param_tying, h, eq_comm]

/-- C5 (amended): the comparison runs on every exit path, including when the
wrapped block raises: the post-scope groups are recomputed from the state the
block left behind, and the block's error reaches the caller exactly when the
comparison detects no difference.  When it does detect a difference, the
consistency error raised in the `finally` path supersedes the block's error
(Python semantics), so the caller observes the consistency error, not the
original one. -/
theorem c5_body_error_reraised_only_if_groups_unchanged {ε : Type} (m m' : Module)
    (body : Module → Option ε × Module) (e : ε) (h : body m = (some e, m')) :
    (check_param_tying m body).1 =
      (if canonGroups m = canonGroups m' then GuardOutcome.bodyError e
       else GuardOutcome.tyingError (canonGroups m) (canonGroups m')) ∧
    (check_param_tying m body).2 = m' := by
  by_cases hc : canonGroups m = canonGroups m' <;>
    simp [check_param_tying, h, hc]

/-- C5 witness: a raising body that leaves the groups unchanged; its error is
what the caller observes. -/
theorem c5_witness :
    (check_param_tying (Module.node 0 [("a", 1)] .nil)
        (fun x => (some 3, x))).1 = GuardOutcome.bodyError 3 := by
  have h := c5_body_error_reraised_only_if_groups_unchanged (ε := Nat)
    (Module.node 0 [("a", 1)] .nil) (Module.node 0 [("a", 1)] .nil)
    (fun x => (some 3, x)) 3 rfl
  simpa using h.1

/-- C5 counterexample: the wrapped block raises error `7` and also changes the
groups; the caller observes the consistency error, not the original error —
refuting the claim that the original error is what the caller observes even
when the comparison detects a difference. -/
theorem c5_counterexample :
    (check_param_tying (Module.node 0 [("a", 1)] .nil)
        (fun _ => (some 7, Module.node 0 [("a", 1), ("b", 2)] .nil))).1 =
      GuardOutcome.tyingError [["a"]] [["a"], ["b"]] ∧
    (check_param_tying (Module.node 0 [("a", 1)] .nil)
        (fun _ => (some 7, Module.node 0 [("a", 1), ("b", 2)] .nil))).1 ≠
      GuardOutcome.bodyError 7 := by
  constructor <;> decide

/-- C3 (amended): when the wrap policy evaluates a non-root module without the
legacy attribute and the model's `fsdp_wrap_fn` returns a mapping with a key
outside the recognized option set, it raises a configuration error — whose
message names the *valid* key set, not the invalid keys that were supplied. -/
theorem c3_invalid_wrap_keys_raise_error_naming_valid_keys
    (parent cur : PolicyModule) (f : PolicyModule → WrapFnRet)
    (kvs : List (String × Nat)) (k : String)
    (hattr : cur.fsdpWrapAttr = none) (hroot : cur.pmid ≠ parent.pmid)
    (hdict : f cur = .asDict kvs) (hk : k ∈ kvs.map Prod.fst)
    (hbad : k ∉ FSDP2ConfigAnnotationKeys) :
    generate_default_policy parent (some f) cur =
      .error (.invalidConfigKeys FSDP2ConfigAnnotationKeys) := by
  have hall : ¬ ((kvs.map Prod.fst).all fun k => decide (k ∈ FSDP2ConfigAnnotationKeys)) = true := by
    simp only [List.all_eq_true, decide_eq_true_eq]
    intro h
    exact hbad (h k hk)
  simp [generate_default_policy, lambda_fn, hattr, hroot, hdict, hall]

/-- C3 witness: the amended theorem at a concrete module supplying the
unrecognized key `zzz`. -/
theorem c3_witness :
    generate_default_policy ⟨0, none⟩ (some fun _ => .asDict [("zzz", 0)]) ⟨1, none⟩ =
      .error (.invalidConfigKeys FSDP2ConfigAnnotationKeys) :=
  c3_invalid_wrap_keys_raise_error_naming_valid_keys ⟨0, none⟩ ⟨1, none⟩
    (fun _ => .asDict [("zzz", 0)]) [("zzz", 0)] "zzz"
    rfl (by decide) rfl (by decide) (by decide)

/-- C3 counterexample: the `fsdp_wrap_fn` of the model returns a mapping with
the unrecognized key `zzz`; the raised error's message interpolates only the
valid-key set, and the supplied invalid key `zzz` is not named in it. -/
theorem c3_counterexample :
    generate_default_policy ⟨0, none⟩ (some fun _ => .asDict [("zzz", 0)]) ⟨1, none⟩ =
      .error (.invalidConfigKeys ["reshard_after_forward", "mixed_precision_policy"]) ∧
    "zzz" ∉ ["reshard_after_forward", "mixed_precision_policy"] := by
  exact ⟨rfl, by decide⟩

/-- Membership in the Python-set insert. -/
theorem mem_insertStr {l : List String} {s x : String} :
    x ∈ insertStr l s ↔ x ∈ l ∨ x = s := by
  unfold insertStr
  split
  · constructor
    · exact Or.inl
    · rintro (hx | rfl)
      · exact hx
      · assumption
  · simp

/-- Membership in the collection fold, for an arbitrary accumulator. -/
theorem mem_collectUnseen_aux (n : List (String × Nat)) (o : List (Nat × String))
    (params : List Nat) (acc : List String) (s : String) :
    (s ∈ params.foldl
      (fun acc p =>
        match classifyParam n o p with
        | .error t => insertStr acc t
        | .ok _ => acc) acc) ↔
      s ∈ acc ∨ ∃ p ∈ params, classifyParam n o p = .error s := by
  induction params generalizing acc with
  | nil => simp
  | cons p rest ih =>
    simp only [List.foldl_cons]
    cases hc : classifyParam n o p with
    | error t =>
      rw [ih]
      constructor
      · rintro (hmem | ⟨q, hq, hcq⟩)
        · rcases mem_insertStr.1 hmem with hacc | rfl
          · exact Or.inl hacc
          · exact Or.inr ⟨p, List.mem_cons_self p rest, hc⟩
        · exact Or.inr ⟨q, List.mem_cons_of_mem p hq, hcq⟩
      · rintro (hmem | ⟨q, hq, hcq⟩)
        · exact Or.inl (mem_insertStr.2 (Or.inl hmem))
        · rcases List.mem_cons.1 hq with rfl | hq2
          · rw [hc] at hcq
            injection hcq with ht
            subst ht
            exact Or.inl (mem_insertStr.2 (Or.inr rfl))
          · exact Or.inr ⟨q, hq2, hcq⟩
    | ok q =>
      rw [ih]
      simp [hc]

/-- The `unseen_params` set holds exactly the tags of the failing
references. -/
theorem mem_collectUnseen (n : List (String × Nat)) (o : List (Nat × String))
    (params : List Nat) (s : String) :
    s ∈ collectUnseen n o params ↔ ∃ p ∈ params, classifyParam n o p = .error s := by
  unfold collectUnseen
  rw [mem_collectUnseen_aux]
  simp

/-- `unseen_params` is empty iff every reference resolves. -/
theorem collectUnseen_eq_nil (n : List (String × Nat)) (o : List (Nat × String))
    (params : List Nat) :
    collectUnseen n o params = [] ↔
      ∀ p ∈ params, ∀ s, classifyParam n o p ≠ .error s := by
  simp only [List.eq_nil_iff_forall_not_mem, mem_collectUnseen]
  constructor
  · intro h p hp s hs
    exact h s ⟨p, hp, hs⟩
  · rintro h s ⟨p, hp, hs⟩
    exact h p hp s hs

/-- The clear-then-re-add loop appends the new groups in order. -/
theorem foldl_add_param_group (l : List ParamGroup) (base : Optimizer) :
    l.foldl Optimizer.add_param_group base =
      { base with param_groups := base.param_groups ++ l } := by
  induction l generalizing base with
  | nil => simp
  | cons g t ih =>
    simp only [List.foldl_cons, ih, Optimizer.add_param_group, List.append_assoc,
      List.cons_append, List.nil_append]

/-- C1 (amended): when some parameter reference fails to resolve, the call
raises without mutating the parameter-group list — but the per-parameter
state does not survive: whenever it is non-empty at entry it has already been
cleared (with a warning) before the failure is detected, so after the raise
the state store is empty. -/
theorem c1_failed_remap_preserves_groups_but_state_is_cleared
    (opt : Optimizer) (model : Module) (orig : List (Nat × String))
    (h : ∃ p ∈ opt.allParams, ∃ s, classifyParam model.namedParameters orig p = .error s) :
    (update_optimizer_modules opt model orig).1.isSome = true ∧
    (update_optimizer_modules opt model orig).2.param_groups = opt.param_groups ∧
    (update_optimizer_modules opt model orig).2.state = [] := by
  obtain ⟨p, hp, s, hs⟩ := h
  have hne : collectUnseen model.namedParameters orig opt.allParams ≠ [] := by
    intro hnil
    exact (collectUnseen_eq_nil _ _ _).1 hnil p hp s hs
  by_cases hst : opt.state = [] <;>
    simp [update_optimizer_modules, hne, hst]

/-- C1 witness: the amended theorem at a concrete optimizer holding non-empty
per-parameter state and a reference whose name is absent post-shard. -/
theorem c1_witness :
    (update_optimizer_modules ⟨[⟨[0], []⟩], [(0, 5)]⟩ (.node 0 [] .nil) [(0, "w")]).1.isSome
        = true ∧
    (update_optimizer_modules ⟨[⟨[0], []⟩], [(0, 5)]⟩ (.node 0 [] .nil)
        [(0, "w")]).2.param_groups = [⟨[0], []⟩] ∧
    (update_optimizer_modules ⟨[⟨[0], []⟩], [(0, 5)]⟩ (.node 0 [] .nil) [(0, "w")]).2.state
        = [] :=
  c1_failed_remap_preserves_groups_but_state_is_cleared
    ⟨[⟨[0], []⟩], [(0, 5)]⟩ (.node 0 [] .nil) [(0, "w")]
    ⟨0, by decide, "model.param_name.w", rfl⟩

/-- C1 counterexample: the same optimizer enters the failing call with
non-empty per-parameter state; the call raises, yet afterwards the state
store is empty, not "exactly as it was before the call". -/
theorem c1_counterexample :
    (update_optimizer_modules ⟨[⟨[0], []⟩], [(0, 5)]⟩ (.node 0 [] .nil) [(0, "w")]).1.isSome
        = true ∧
    (update_optimizer_modules ⟨[⟨[0], []⟩], [(0, 5)]⟩ (.node 0 [] .nil) [(0, "w")]).2.state
        = [] ∧
    (Optimizer.state ⟨[⟨[0], []⟩], [(0, 5)]⟩ ≠ []) := by
  refine ⟨by decide, by decide, by decide⟩

/-- C7: when any reference fails to resolve, a single error is raised whose
aggregated list holds a tag for every failing reference across all groups and
nothing else: references absent from `orig_param_to_name` appear under the
identity-based `optimizer.param_id.` tag, references whose mapped name is
absent from the post-shard model under the name-based `model.param_name.`
tag. -/
theorem c7_unresolved_references_reported_aggregated
    (opt : Optimizer) (model : Module) (orig : List (Nat × String))
    (h : ∃ p ∈ opt.allParams, ∃ s, classifyParam model.namedParameters orig p = .error s) :
    ∃ errs, (update_optimizer_modules opt model orig).1 = some (.unresolved errs) ∧
      (∀ p ∈ opt.allParams, ∀ s,
        classifyParam model.namedParameters orig p = .error s → s ∈ errs) ∧
      (∀ s ∈ errs, ∃ p ∈ opt.allParams,
        classifyParam model.namedParameters orig p = .error s) ∧
      (∀ p ∈ opt.allParams, orig.lookup p = none →
        ("optimizer.param_id." ++ toString p) ∈ errs) ∧
      (∀ p ∈ opt.allParams, ∀ nm, orig.lookup p = some nm →
        model.namedParameters.lookup nm = none → ("model.param_name." ++ nm) ∈ errs) := by
  obtain ⟨p, hp, s, hs⟩ := h
  have hne : collectUnseen model.namedParameters orig opt.allParams ≠ [] := by
    intro hnil
    exact (collectUnseen_eq_nil _ _ _).1 hnil p hp s hs
  refine ⟨collectUnseen model.namedParameters orig opt.allParams, ?_, ?_, ?_, ?_, ?_⟩
  · simp [update_optimizer_modules, hne]
  · intro q hq t ht
    exact (mem_collectUnseen _ _ _ _).2 ⟨q, hq, ht⟩
  · intro t ht
    exact (mem_collectUnseen _ _ _ _).1 ht
  · intro q hq hnone
    refine (mem_collectUnseen _ _ _ _).2 ⟨q, hq, ?_⟩
    simp [classifyParam, hnone]
  · intro q hq nm hnm hmiss
    refine (mem_collectUnseen _ _ _ _).2 ⟨q, hq, ?_⟩
    simp [classifyParam, hnm, hmiss]

/-- C7 witness: two failing references of both kinds, spread over two groups,
reported together. -/
theorem c7_witness :
    ∃ errs,
      (update_optimizer_modules ⟨[⟨[0], []⟩, ⟨[1], []⟩], []⟩ (.node 0 [] .nil)
          [(0, "w")]).1 = some (.unresolved errs) ∧
      (∀ p ∈ Optimizer.allParams ⟨[⟨[0], []⟩, ⟨[1], []⟩], []⟩, ∀ s,
        classifyParam (Module.namedParameters (.node 0 [] .nil)) [(0, "w")] p = .error s →
          s ∈ errs) ∧
      (∀ s ∈ errs, ∃ p ∈ Optimizer.allParams ⟨[⟨[0], []⟩, ⟨[1], []⟩], []⟩,
        classifyParam (Module.namedParameters (.node 0 [] .nil)) [(0, "w")] p = .error s) ∧
      (∀ p ∈ Optimizer.allParams ⟨[⟨[0], []⟩, ⟨[1], []⟩], []⟩,
        List.lookup p [(0, "w")] = none → ("optimizer.param_id." ++ toString p) ∈ errs) ∧
      (∀ p ∈ Optimizer.allParams ⟨[⟨[0], []⟩, ⟨[1], []⟩], []⟩, ∀ nm,
        List.lookup p [(0, "w")] = some nm →
        (Module.namedParameters (.node 0 [] .nil)).lookup nm = none →
          ("model.param_name." ++ nm) ∈ errs) :=
  c7_unresolved_references_reported_aggregated
    ⟨[⟨[0], []⟩, ⟨[1], []⟩], []⟩ (.node 0 [] .nil) [(0, "w")]
    ⟨1, by decide, "optimizer.param_id.1", rfl⟩

/-- C8: when every reference of every group resolves, the call succeeds and
replaces the group collection (clear, then re-add each new group in original
order): the new collection corresponds group-by-group to the old one, each
new group keeping every non-`params` key and value and substituting each
`params` entry in-order by the post-shard model's parameter found under the
reference's mapped fully-qualified name; the state store ends empty. -/
theorem c8_successful_remap_rebuilds_groups_in_order
    (opt : Optimizer) (model : Module) (orig : List (Nat × String))
    (h : ∀ p ∈ opt.allParams, ∃ q, classifyParam model.namedParameters orig p = .ok q) :
    ∃ opt', update_optimizer_modules opt model orig = (none, opt') ∧
      opt'.state = [] ∧
      List.Forall₂
        (fun g g' => g'.opts = g.opts ∧
          List.Forall₂ (fun p q => classifyParam model.namedParameters orig p = .ok q)
            g.params g'.params)
        opt.param_groups opt'.param_groups := by
  have hnil : collectUnseen model.namedParameters orig opt.allParams = [] := by
    rw [collectUnseen_eq_nil]
    intro p hp s hs
    obtain ⟨q, hq⟩ := h p hp
    rw [hq] at hs
    exact Except.noConfusion hs
  have hupd : update_optimizer_modules opt model orig =
      (none,
       { param_groups := opt.param_groups.map fun g =>
           { params := g.params.map fun p =>
               ((classifyParam model.namedParameters orig p).toOption).getD p,
             opts := g.opts },
         state := [] }) := by
    by_cases hst : opt.state = [] <;>
      simp [update_optimizer_modules, hnil, foldl_add_param_group, hst]
  have hf : List.Forall₂
      (fun g g' => g'.opts = g.opts ∧
        List.Forall₂ (fun p q => classifyParam model.namedParameters orig p = .ok q)
          g.params g'.params)
      opt.param_groups
      (opt.param_groups.map fun g =>
        ({ params := g.params.map fun p =>
             ((classifyParam model.namedParameters orig p).toOption).getD p,
           opts := g.opts } : ParamGroup)) := by
    rw [List.forall₂_map_right_iff, List.forall₂_same]
    intro g hg
    refine ⟨rfl, ?_⟩
    rw [List.forall₂_map_right_iff, List.forall₂_same]
    intro p hpg
    have hpa : p ∈ opt.allParams := by
      unfold Optimizer.allParams
      exact List.mem_flatMap.2 ⟨g, hg, hpg⟩
    obtain ⟨q, hq⟩ := h p hpa
    rw [hq]
    rfl
  exact ⟨_, hupd, rfl, hf⟩

/-- C8 witness: the end-to-end example of spec §8 — one group with
`params=[old]`, map `{old: "layer.weight"}`, and a post-shard model holding a
new parameter object at `layer.weight`; the group is rebuilt around the new
object with its hyperparameters intact. -/
theorem c8_witness :
    ∃ opt',
      update_optimizer_modules ⟨[⟨[10], [("lr", 3)]⟩], []⟩
          (.node 0 [] (.cons "layer" (.node 1 [("weight", 20)] .nil) .nil))
          [(10, "layer.weight")] = (none, opt') ∧
      opt'.state = [] ∧
      List.Forall₂
        (fun g g' => g'.opts = g.opts ∧
          List.Forall₂
            (fun p q =>
              classifyParam
                (Module.namedParameters
                  (.node 0 [] (.cons "layer" (.node 1 [("weight", 20)] .nil) .nil)))
                [(10, "layer.weight")] p = .ok q)
            g.params g'.params)
        ([⟨[10], [("lr", 3)]⟩] : List ParamGroup) opt'.param_groups :=
  c8_successful_remap_rebuilds_groups_in_order
    ⟨[⟨[10], [("lr", 3)]⟩], []⟩
    (.node 0 [] (.cons "layer" (.node 1 [("weight", 20)] .nil) .nil))
    [(10, "layer.weight")]
    (by
      intro p hp
      have hp10 : p ∈ [10] := hp
      rw [List.mem_singleton] at hp10
      subst hp10
      exact ⟨20, rfl⟩)

/-- Membership in the `seen_params` accumulator of the tie-detection fold. -/
theorem mem_foldl_tieStep_fst (L : List Module) (s t : Finset Nat) (p : Nat) :
    p ∈ (L.foldl tieStep (s, t)).1 ↔ p ∈ s ∨ ∃ m ∈ L, p ∈ m.paramIds := by
  induction L generalizing s t with
  | nil => simp
  | cons m rest ih =>
    simp only [List.foldl_cons, tieStep]
    rw [ih]
    simp only [Finset.mem_union, List.mem_toFinset, List.mem_cons]
    constructor
    · rintro ((hs | hm) | ⟨m2, hm2, hp⟩)
      · exact Or.inl hs
      · exact Or.inr ⟨m, Or.inl rfl, hm⟩
      · exact Or.inr ⟨m2, Or.inr hm2, hp⟩
    · rintro (hs | ⟨m2, (rfl | hm2), hp⟩)
      · exact Or.inl (Or.inl hs)
      · exact Or.inl (Or.inr hp)
      · exact Or.inr ⟨m2, hm2, hp⟩

/-- Splitting a cross-position share at a cons. -/
theorem sharedPair_cons (m : Module) (rest : List Module) (p : Nat) :
    SharedPair (m :: rest) p ↔
      (p ∈ m.paramIds ∧ ∃ m2 ∈ rest, p ∈ m2.paramIds) ∨ SharedPair rest p := by
  constructor
  · rintro ⟨m1, m2, hsub, h1, h2⟩
    cases hsub with
    | cons _ h => exact Or.inr ⟨m1, m2, h, h1, h2⟩
    | cons₂ _ h => exact Or.inl ⟨h1, m2, List.singleton_sublist.1 h, h2⟩
  · rintro (⟨hp, m2, hm2, hp2⟩ | ⟨m1, m2, hsub, h1, h2⟩)
    · exact ⟨m, m2, List.Sublist.cons₂ m (List.singleton_sublist.2 hm2), hp, hp2⟩
    · exact ⟨m1, m2, List.Sublist.cons m hsub, h1, h2⟩

/-- Membership in the `tied_params` accumulator of the tie-detection fold. -/
theorem mem_foldl_tieStep_snd (L : List Module) (s t : Finset Nat) (p : Nat) :
    p ∈ (L.foldl tieStep (s, t)).2 ↔
      p ∈ t ∨ (p ∈ s ∧ ∃ m ∈ L, p ∈ m.paramIds) ∨ SharedPair L p := by
  induction L generalizing s t with
  | nil =>
    simp only [List.foldl_nil, SharedPair]
    simp
  | cons m rest ih =>
    simp only [List.foldl_cons, tieStep]
    rw [ih, sharedPair_cons]
    simp only [Finset.mem_union, List.mem_toFinset, List.mem_filter, decide_eq_true_eq,
      List.mem_cons, exists_eq_or_imp]
    aesop

/-- `tied_params` holds exactly the parameters present at two distinct
positions of the candidate list. -/
theorem mem_tiedParams (L : List Module) (p : Nat) :
    p ∈ tiedParams L ↔ SharedPair L p := by
  unfold tiedParams
  rw [mem_foldl_tieStep_snd]
  simp

/-- `modules_with_tied_params` holds exactly the identities of candidates
owning a cross-position-shared parameter. -/
theorem mem_modulesWithTiedParams (L : List Module) (x : Nat) :
    x ∈ modulesWithTiedParams L ↔
      ∃ m ∈ L, m.mid = x ∧ ∃ p ∈ m.paramIds, SharedPair L p := by
  unfold modulesWithTiedParams
  simp only [List.mem_toFinset, List.mem_map, List.mem_filter, List.any_eq_true,
    decide_eq_true_eq, mem_tiedParams]
  constructor
  · rintro ⟨m, ⟨hmL, hp⟩, rfl⟩
    exact ⟨m, hmL, rfl, hp⟩
  · rintro ⟨m, hmL, rfl, hp⟩
    exact ⟨m, ⟨hmL, hp⟩, rfl⟩

/-- A candidate owning a parameter that two (other) positions share also
shares it with a position different from its own. -/
theorem shared_partner {L : List Module} {a b c : Module} {p : Nat}
    (ha : a ∈ L) (hp : p ∈ a.paramIds)
    (hsub : [b, c].Sublist L) (hb : p ∈ b.paramIds) (hc : p ∈ c.paramIds) :
    ∃ m2, ([a, m2].Sublist L ∨ [m2, a].Sublist L) ∧ p ∈ m2.paramIds := by
  induction L with
  | nil => exact absurd ha (List.not_mem_nil a)
  | cons x rest ih =>
    rcases List.mem_cons.1 ha with rfl | haR
    · cases hsub with
      | cons _ h =>
        have hcR : c ∈ rest := h.subset (List.mem_cons_of_mem b (List.mem_cons_self c []))
        exact ⟨c, Or.inl (List.Sublist.cons₂ a (List.singleton_sublist.2 hcR)), hc⟩
      | cons₂ _ h =>
        exact ⟨c, Or.inl (List.Sublist.cons₂ a h), hc⟩
    · cases hsub with
      | cons _ h =>
        obtain ⟨m2, hor, hpm2⟩ := ih haR h
        rcases hor with h1 | h1
        · exact ⟨m2, Or.inl (List.Sublist.cons x h1), hpm2⟩
        · exact ⟨m2, Or.inr (List.Sublist.cons x h1), hpm2⟩
      | cons₂ _ h =>
        exact ⟨b, Or.inr (List.Sublist.cons₂ b (List.singleton_sublist.2 haR)), hb⟩

/-- Two distinct members of a list occupy two ordered positions. -/
theorem pair_sublist_of_mem_ne {α : Type} {a b : α} {L : List α}
    (ha : a ∈ L) (hb : b ∈ L) (hne : a ≠ b) :
    [a, b].Sublist L ∨ [b, a].Sublist L := by
  induction L with
  | nil => exact absurd ha (List.not_mem_nil a)
  | cons x rest ih =>
    rcases List.mem_cons.1 ha with rfl | haR
    · rcases List.mem_cons.1 hb with rfl | hbR
      · exact absurd rfl hne
      · exact Or.inl (List.Sublist.cons₂ a (List.singleton_sublist.2 hbR))
    · rcases List.mem_cons.1 hb with rfl | hbR
      · exact Or.inr (List.Sublist.cons₂ b (List.singleton_sublist.2 haR))
      · rcases ih haR hbR with h | h
        · exact Or.inl (List.Sublist.cons x h)
        · exact Or.inr (List.Sublist.cons x h)

mutual

/-- A parameter of a module of the subtree is a parameter of the root. -/
theorem mem_paramIds_of_mem_allModules (m : Module) (d : Module)
    (hd : d ∈ m.allModules) (p : Nat) (hp : p ∈ d.paramIds) : p ∈ m.paramIds := by
  cases m with
  | node i ps c =>
    rcases List.mem_cons.1 hd with rfl | hdc
    · exact hp
    · unfold Module.paramIds
      exact List.mem_append.2 (Or.inr (mem_paramIdsC_of_mem_allModulesC c d hdc p hp))

/-- A parameter of a module inside a children record is a parameter of the
record. -/
theorem mem_paramIdsC_of_mem_allModulesC (c : Children) (d : Module)
    (hd : d ∈ Children.allModulesC c) (p : Nat) (hp : p ∈ d.paramIds) :
    p ∈ Children.paramIds c := by
  cases c with
  | nil => exact absurd hd (List.not_mem_nil d)
  | cons nm m rest =>
    rcases List.mem_append.1 hd with h1 | h2
    · exact List.mem_append.2 (Or.inl (mem_paramIds_of_mem_allModules m d h1 p hp))
    · exact List.mem_append.2 (Or.inr (mem_paramIdsC_of_mem_allModulesC rest d h2 p hp))

end

mutual

/-- Subtree members are no larger than the root. -/
theorem sz_le_of_mem_allModules (m : Module) (d : Module)
    (hd : d ∈ m.allModules) : d.sz ≤ m.sz := by
  cases m with
  | node i ps c =>
    rcases List.mem_cons.1 hd with rfl | hdc
    · exact Nat.le_refl _
    · have h := szC_le_of_mem_allModulesC c d hdc
      have hsz : (Module.node i ps c).sz = 1 + Children.szC c := rfl
      rw [hsz]
      omega

/-- Members of a children record are strictly smaller than one plus its
size. -/
theorem szC_le_of_mem_allModulesC (c : Children) (d : Module)
    (hd : d ∈ Children.allModulesC c) : d.sz ≤ Children.szC c := by
  cases c with
  | nil => exact absurd hd (List.not_mem_nil d)
  | cons nm m rest =>
    rcases List.mem_append.1 hd with h1 | h2
    · have h := sz_le_of_mem_allModules m d h1
      have hsz : Children.szC (Children.cons nm m rest) = m.sz + Children.szC rest := rfl
      rw [hsz]
      omega
    · have h := szC_le_of_mem_allModulesC rest d h2
      have hsz : Children.szC (Children.cons nm m rest) = m.sz + Children.szC rest := rfl
      rw [hsz]
      omega

end

/-- A proper descendant is a different module object than its ancestor. -/
theorem ne_of_properDescendant {d anc : Module} (h : ProperDescendant d anc) :
    d ≠ anc := by
  intro heq
  have hle := szC_le_of_mem_allModulesC anc.childrenRec d h
  have hsz : anc.sz = 1 + Children.szC anc.childrenRec := by
    cases anc
    rfl
  rw [heq] at hle
  omega

/-- Parameters of a proper descendant are parameters of the ancestor. -/
theorem mem_paramIds_of_properDescendant {d anc : Module} {p : Nat}
    (h : ProperDescendant d anc) (hp : p ∈ d.paramIds) : p ∈ anc.paramIds := by
  cases anc with
  | node i ps c =>
    have hc : p ∈ Children.paramIds c := mem_paramIdsC_of_mem_allModulesC c d h p hp
    unfold Module.paramIds
    exact List.mem_append.2 (Or.inr hc)

/-- C6: for every candidate list satisfying object-identity well-formedness
(equal identities denote equal modules, as is forced for Python objects):
standalone modules own a parameter and share none with an entry at another
position; tied modules share a parameter with an entry at another position;
parameterless entries land in neither output; the standalone output is a
sublist of the input (order preserved); and per entry, membership in the
standalone output is exactly "not tied and not parameterless", while "tied
and parameterless" is impossible — so the standalone, tied and parameterless
entries are pairwise disjoint and exactly partition the candidate list. -/
theorem c6_classifier_partitions_candidates (L : List Module)
    (hwf : ∀ m1 ∈ L, ∀ m2 ∈ L, m1.mid = m2.mid → m1 = m2) :
    (∀ m ∈ (get_standalone_and_tied_modules L).1,
      m.paramIds ≠ [] ∧ ¬ SharesWithOther L m) ∧
    (∀ x ∈ (get_standalone_and_tied_modules L).2,
      ∃ m ∈ L, m.mid = x ∧ SharesWithOther L m) ∧
    (∀ m ∈ L, m.paramIds = [] →
      m ∉ (get_standalone_and_tied_modules L).1 ∧
      m.mid ∉ (get_standalone_and_tied_modules L).2) ∧
    ((get_standalone_and_tied_modules L).1.Sublist L) ∧
    (∀ m ∈ L,
      (m ∈ (get_standalone_and_tied_modules L).1 ↔
        (m.mid ∉ (get_standalone_and_tied_modules L).2 ∧ m.paramIds ≠ [])) ∧
      ¬ (m.mid ∈ (get_standalone_and_tied_modules L).2 ∧ m.paramIds = [])) := by
  have hmemT : ∀ x, x ∈ (get_standalone_and_tied_modules L).2 ↔
      ∃ m ∈ L, m.mid = x ∧ ∃ p ∈ m.paramIds, SharedPair L p :=
    fun x => mem_modulesWithTiedParams L x
  have hmemS : ∀ m, m ∈ (get_standalone_and_tied_modules L).1 ↔
      m ∈ L ∧ (m.mid ∉ modulesWithTiedParams L ∧ m.paramIds ≠ []) := by
    intro m
    unfold get_standalone_and_tied_modules
    rw [List.mem_filter]
    simp
  refine ⟨?_, ?_, ?_, ?_, ?_⟩
  · intro m hm
    obtain ⟨hmL, hnT, hpne⟩ := (hmemS m).1 hm
    refine ⟨hpne, ?_⟩
    rintro ⟨m2, hor, p, hpm, hpm2⟩
    have hshared : SharedPair L p := by
      rcases hor with h1 | h1
      · exact ⟨m, m2, h1, hpm, hpm2⟩
      · exact ⟨m2, m, h1, hpm2, hpm⟩
    exact hnT ((hmemT m.mid).2 ⟨m, hmL, rfl, p, hpm, hshared⟩)
  · intro x hx
    obtain ⟨m, hmL, rfl, p, hpm, hshared⟩ := (hmemT x).1 hx
    obtain ⟨m1, m2, hsub, h1, h2⟩ := hshared
    obtain ⟨m', hor, hpm'⟩ := shared_partner hmL hpm hsub h1 h2
    exact ⟨m, hmL, rfl, m', hor, p, hpm, hpm'⟩
  · intro m hmL hmp
    constructor
    · intro hm
      exact ((hmemS m).1 hm).2.2 hmp
    · intro hm
      obtain ⟨m2, hm2L, hmid, p, hp2, _⟩ := (hmemT m.mid).1 hm
      have : m2 = m := hwf m2 hm2L m hmL hmid
      subst this
      rw [hmp] at hp2
      exact absurd hp2 (List.not_mem_nil p)
  · exact List.filter_sublist L
  · intro m hmL
    constructor
    · constructor
      · intro hm
        exact ((hmemS m).1 hm).2
      · intro h
        exact (hmemS m).2 ⟨hmL, h⟩
    · rintro ⟨hmT, hmp⟩
      obtain ⟨m2, hm2L, hmid, p, hp2, _⟩ := (hmemT m.mid).1 hmT
      have : m2 = m := hwf m2 hm2L m hmL hmid
      subst this
      rw [hmp] at hp2
      exact absurd hp2 (List.not_mem_nil p)

/-- C6 witness: the end-to-end example of spec §8 — candidates `[a, b, c]`
with `a.weight` and `b.weight` the same object and `c.weight` standalone. -/
theorem c6_witness :
    (∀ m ∈ (get_standalone_and_tied_modules
        [.node 1 [("weight", 10)] .nil, .node 2 [("weight", 10)] .nil,
         .node 3 [("weight", 11)] .nil]).1,
      m.paramIds ≠ [] ∧ ¬ SharesWithOther
        [.node 1 [("weight", 10)] .nil, .node 2 [("weight", 10)] .nil,
         .node 3 [("weight", 11)] .nil] m) ∧
    (∀ x ∈ (get_standalone_and_tied_modules
        [.node 1 [("weight", 10)] .nil, .node 2 [("weight", 10)] .nil,
         .node 3 [("weight", 11)] .nil]).2,
      ∃ m ∈ [Module.node 1 [("weight", 10)] .nil, .node 2 [("weight", 10)] .nil,
         .node 3 [("weight", 11)] .nil], m.mid = x ∧ SharesWithOther
        [.node 1 [("weight", 10)] .nil, .node 2 [("weight", 10)] .nil,
         .node 3 [("weight", 11)] .nil] m) ∧
    (∀ m ∈ [Module.node 1 [("weight", 10)] .nil, .node 2 [("weight", 10)] .nil,
         .node 3 [("weight", 11)] .nil], m.paramIds = [] →
      m ∉ (get_standalone_and_tied_modules
        [.node 1 [("weight", 10)] .nil, .node 2 [("weight", 10)] .nil,
         .node 3 [("weight", 11)] .nil]).1 ∧
      m.mid ∉ (get_standalone_and_tied_modules
        [.node 1 [("weight", 10)] .nil, .node 2 [("weight", 10)] .nil,
         .node 3 [("weight", 11)] .nil]).2) ∧
    ((get_standalone_and_tied_modules
        [.node 1 [("weight", 10)] .nil, .node 2 [("weight", 10)] .nil,
         .node 3 [("weight", 11)] .nil]).1.Sublist
      [.node 1 [("weight", 10)] .nil, .node 2 [("weight", 10)] .nil,
         .node 3 [("weight", 11)] .nil]) ∧
    (∀ m ∈ [Module.node 1 [("weight", 10)] .nil, .node 2 [("weight", 10)] .nil,
         .node 3 [("weight", 11)] .nil],
      (m ∈ (get_standalone_and_tied_modules
        [.node 1 [("weight", 10)] .nil, .node 2 [("weight", 10)] .nil,
         .node 3 [("weight", 11)] .nil]).1 ↔
        (m.mid ∉ (get_standalone_and_tied_modules
        [.node 1 [("weight", 10)] .nil, .node 2 [("weight", 10)] .nil,
         .node 3 [("weight", 11)] .nil]).2 ∧ m.paramIds ≠ [])) ∧
      ¬ (m.mid ∈ (get_standalone_and_tied_modules
        [.node 1 [("weight", 10)] .nil, .node 2 [("weight", 10)] .nil,
         .node 3 [("weight", 11)] .nil]).2 ∧ m.paramIds = [])) :=
  c6_classifier_partitions_candidates
    [.node 1 [("weight", 10)] .nil, .node 2 [("weight", 10)] .nil,
     .node 3 [("weight", 11)] .nil]
    (by decide)

/-- C10: a candidate owning a parameter that is a proper descendant of
another candidate, and likewise a candidate object occurring at two
positions, is always placed in the tied output and never in the standalone
output (for the descendant case, the ancestor as well). -/
theorem c10_descendant_or_duplicate_candidates_are_tied (L : List Module) :
    (∀ d anc, d ∈ L → anc ∈ L → ProperDescendant d anc → d.paramIds ≠ [] →
      d.mid ∈ (get_standalone_and_tied_modules L).2 ∧
      anc.mid ∈ (get_standalone_and_tied_modules L).2 ∧
      d ∉ (get_standalone_and_tied_modules L).1 ∧
      anc ∉ (get_standalone_and_tied_modules L).1) ∧
    (∀ m, [m, m].Sublist L → m.paramIds ≠ [] →
      m.mid ∈ (get_standalone_and_tied_modules L).2 ∧
      m ∉ (get_standalone_and_tied_modules L).1) := by
  have hnotS : ∀ m, m.mid ∈ (get_standalone_and_tied_modules L).2 →
      m ∉ (get_standalone_and_tied_modules L).1 := by
    intro m hT hS
    unfold get_standalone_and_tied_modules at hT hS
    rw [List.mem_filter] at hS
    have := hS.2
    simp only [decide_eq_true_eq] at this
    exact this.1 hT
  constructor
  · intro d anc hdL hancL hdesc hdp
    obtain ⟨p, hp⟩ := List.exists_mem_of_ne_nil d.paramIds hdp
    have hpanc : p ∈ anc.paramIds := mem_paramIds_of_properDescendant hdesc hp
    have hne : d ≠ anc := ne_of_properDescendant hdesc
    have hshared : SharedPair L p := by
      rcases pair_sublist_of_mem_ne hdL hancL hne with h | h
      · exact ⟨d, anc, h, hp, hpanc⟩
      · exact ⟨anc, d, h, hpanc, hp⟩
    have hdT : d.mid ∈ (get_standalone_and_tied_modules L).2 :=
      (mem_modulesWithTiedParams L d.mid).2 ⟨d, hdL, rfl, p, hp, hshared⟩
    have hancT : anc.mid ∈ (get_standalone_and_tied_modules L).2 :=
      (mem_modulesWithTiedParams L anc.mid).2 ⟨anc, hancL, rfl, p, hpanc, hshared⟩
    exact ⟨hdT, hancT, hnotS d hdT, hnotS anc hancT⟩
  · intro m hsub hmp
    obtain ⟨p, hp⟩ := List.exists_mem_of_ne_nil m.paramIds hmp
    have hmL : m ∈ L := hsub.subset (List.mem_cons_self m [m])
    have hshared : SharedPair L p := ⟨m, m, hsub, hp, hp⟩
    have hT : m.mid ∈ (get_standalone_and_tied_modules L).2 :=
      (mem_modulesWithTiedParams L m.mid).2 ⟨m, hmL, rfl, p, hp, hshared⟩
    exact ⟨hT, hnotS m hT⟩

/-- C10 witness: a parent candidate listed together with its own child, and a
candidate listed twice; all land in the tied output, none in the standalone
output. -/
theorem c10_witness :
    ((Module.node 2 [("w", 5)] .nil).mid ∈ (get_standalone_and_tied_modules
      [.node 1 [] (.cons "ch" (.node 2 [("w", 5)] .nil) .nil),
       .node 2 [("w", 5)] .nil]).2 ∧
     (Module.node 1 [] (.cons "ch" (.node 2 [("w", 5)] .nil) .nil)).mid ∈
      (get_standalone_and_tied_modules
        [.node 1 [] (.cons "ch" (.node 2 [("w", 5)] .nil) .nil),
         .node 2 [("w", 5)] .nil]).2 ∧
     Module.node 2 [("w", 5)] .nil ∉ (get_standalone_and_tied_modules
      [.node 1 [] (.cons "ch" (.node 2 [("w", 5)] .nil) .nil),
       .node 2 [("w", 5)] .nil]).1 ∧
     Module.node 1 [] (.cons "ch" (.node 2 [("w", 5)] .nil) .nil) ∉
      (get_standalone_and_tied_modules
        [.node 1 [] (.cons "ch" (.node 2 [("w", 5)] .nil) .nil),
         .node 2 [("w", 5)] .nil]).1) ∧
    ((Module.node 7 [("q", 9)] .nil).mid ∈ (get_standalone_and_tied_modules
      [.node 7 [("q", 9)] .nil, .node 7 [("q", 9)] .nil]).2 ∧
     Module.node 7 [("q", 9)] .nil ∉ (get_standalone_and_tied_modules
      [.node 7 [("q", 9)] .nil, .node 7 [("q", 9)] .nil]).1) :=
  ⟨(c10_descendant_or_duplicate_candidates_are_tied
      [.node 1 [] (.cons "ch" (.node 2 [("w", 5)] .nil) .nil),
       .node 2 [("w", 5)] .nil]).1
    (.node 2 [("w", 5)] .nil) (.node 1 [] (.cons "ch" (.node 2 [("w", 5)] .nil) .nil))
    (by decide) (by decide) (by decide) (by decide),
   (c10_descendant_or_duplicate_candidates_are_tied
      [.node 7 [("q", 9)] .nil, .node 7 [("q", 9)] .nil]).2
    (.node 7 [("q", 9)] .nil)
    (List.Sublist.refl _) (by decide)⟩

/-- Membership in the designated parameter set, for an arbitrary
accumulator. -/
theorem mem_shardParamSet_aux (D : List Module) (s : Finset Nat) (p : Nat) :
    p ∈ D.foldl (fun s m => s ∪ m.paramIds.toFinset) s ↔
      p ∈ s ∨ ∃ m ∈ D, p ∈ m.paramIds := by
  induction D generalizing s with
  | nil => simp
  | cons m rest ih =>
    simp only [List.foldl_cons]
    rw [ih]
    simp only [Finset.mem_union, List.mem_toFinset, List.mem_cons]
    constructor
    · rintro ((hs | hm) | ⟨m2, hm2, hp⟩)
      · exact Or.inl hs
      · exact Or.inr ⟨m, Or.inl rfl, hm⟩
      · exact Or.inr ⟨m2, Or.inr hm2, hp⟩
    · rintro (hs | ⟨m2, (rfl | hm2), hp⟩)
      · exact Or.inl (Or.inl hs)
      · exact Or.inl (Or.inr hp)
      · exact Or.inr ⟨m2, hm2, hp⟩

/-- `modules_to_shard_params` holds exactly the parameters reachable from a
designated module. -/
theorem mem_shardParamSet (D : List Module) (p : Nat) :
    p ∈ shardParamSet D ↔ ∃ m ∈ D, p ∈ m.paramIds := by
  unfold shardParamSet
  rw [mem_shardParamSet_aux]
  simp

mutual

/-- The DFS on a subtree whose module identities are fresh for the visited
set: it errors (naming an offender) exactly when an examined module of the
subtree directly owns a designated parameter, and otherwise succeeds,
returning a visited set bounded by the old one plus the subtree's
identities. -/
theorem checkPS_spec (desig : List Nat) (sp : Finset Nat) (m : Module)
    (visited : List Nat) (hdis : ∀ x ∈ m.allMids, x ∉ visited)
    (hnd : m.allMids.Nodup) :
    (OffenseWithin desig sp (Module.reachAvoid desig m) →
      ∃ i, checkParamSharing desig sp m visited = .error i ∧
        ∃ mm ∈ Module.reachAvoid desig m, mm.mid = i ∧ mm.mid ∉ desig ∧
          ∃ p ∈ mm.ownParamIds, p ∈ sp) ∧
    (¬ OffenseWithin desig sp (Module.reachAvoid desig m) →
      ∃ v2, checkParamSharing desig sp m visited = .ok v2 ∧
        ∀ x ∈ v2, x ∈ visited ∨ x ∈ m.allMids) := by
  cases m with
  | node i ps c =>
    have hmids : (Module.node i ps c).allMids
        = i :: (Children.allModulesC c).map Module.mid := by
      simp [Module.allMids, Module.allModules, Module.mid]
    by_cases hdes : i ∈ desig
    · have hra : Module.reachAvoid desig (Module.node i ps c) = [] := by
        simp [Module.reachAvoid, hdes]
      have hres : checkParamSharing desig sp (Module.node i ps c) visited
          = .ok visited := by
        simp [checkParamSharing, hdes]
      constructor
      · intro hoff
        rw [hra] at hoff
        obtain ⟨mm, hmm, _⟩ := hoff
        exact absurd hmm (List.not_mem_nil mm)
      · intro _
        exact ⟨visited, hres, fun x hx => Or.inl hx⟩
    · have hivis : i ∉ visited := by
        apply hdis
        rw [hmids]
        exact List.mem_cons_self _ _
      have hra : Module.reachAvoid desig (Module.node i ps c)
          = Module.node i ps c :: Children.reachAvoidC desig c := by
        simp [Module.reachAvoid, hdes]
      by_cases hown : (ps.map Prod.snd).any (fun p => decide (p ∈ sp)) = true
      · have hres : checkParamSharing desig sp (Module.node i ps c) visited
            = .error i := by
          simp [checkParamSharing, hdes, hivis, hown]
        have hex : ∃ p ∈ (Module.node i ps c).ownParamIds, p ∈ sp := by
          obtain ⟨p, hp1, hp2⟩ := List.any_eq_true.1 hown
          exact ⟨p, hp1, of_decide_eq_true hp2⟩
        constructor
        · intro _
          refine ⟨i, hres, Module.node i ps c, ?_, rfl, hdes, hex⟩
          rw [hra]
          exact List.mem_cons_self _ _
        · intro hnoff
          exfalso
          apply hnoff
          rw [hra]
          exact ⟨Module.node i ps c, List.mem_cons_self _ _, hdes, hex⟩
      · have hres : checkParamSharing desig sp (Module.node i ps c) visited
            = Children.checkParamSharing desig sp c (i :: visited) := by
          simp [checkParamSharing, hdes, hivis, hown]
        have hndtl := hnd
        rw [hmids, List.nodup_cons] at hndtl
        have hdisc : ∀ x ∈ (Children.allModulesC c).map Module.mid,
            x ∉ i :: visited := by
          intro x hx hxin
          rcases List.mem_cons.1 hxin with rfl | hxv
          · exact hndtl.1 hx
          · exact hdis x (by rw [hmids]; exact List.mem_cons_of_mem _ hx) hxv
        obtain ⟨ih1, ih2⟩ := checkPSC_spec desig sp c (i :: visited) hdisc hndtl.2
        constructor
        · intro hoff
          have hoffc : OffenseWithin desig sp (Children.reachAvoidC desig c) := by
            rw [hra] at hoff
            obtain ⟨mm, hmm, hmmdes, p, hp, hpsp⟩ := hoff
            rcases List.mem_cons.1 hmm with rfl | hmm2
            · exfalso
              apply hown
              exact List.any_eq_true.2 ⟨p, hp, decide_eq_true hpsp⟩
            · exact ⟨mm, hmm2, hmmdes, p, hp, hpsp⟩
          obtain ⟨j, hj, mm, hmm, hrest⟩ := ih1 hoffc
          refine ⟨j, by rw [hres]; exact hj, mm, ?_, hrest⟩
          rw [hra]
          exact List.mem_cons_of_mem _ hmm
        · intro hnoff
          have hnoffc : ¬ OffenseWithin desig sp (Children.reachAvoidC desig c) := by
            intro hc
            apply hnoff
            rw [hra]
            obtain ⟨mm, hmm, hr⟩ := hc
            exact ⟨mm, List.mem_cons_of_mem _ hmm, hr⟩
          obtain ⟨v2, hv2, hbound⟩ := ih2 hnoffc
          refine ⟨v2, by rw [hres]; exact hv2, ?_⟩
          intro x hx
          rcases hbound x hx with hxv | hxc
          · rcases List.mem_cons.1 hxv with rfl | hxv2
            · right
              rw [hmids]
              exact List.mem_cons_self _ _
            · exact Or.inl hxv2
          · right
            rw [hmids]
            exact List.mem_cons_of_mem _ hxc

/-- `checkPS_spec` for the sequential walk over a children record. -/
theorem checkPSC_spec (desig : List Nat) (sp : Finset Nat) (c : Children)
    (visited : List Nat)
    (hdis : ∀ x ∈ (Children.allModulesC c).map Module.mid, x ∉ visited)
    (hnd : ((Children.allModulesC c).map Module.mid).Nodup) :
    (OffenseWithin desig sp (Children.reachAvoidC desig c) →
      ∃ i, Children.checkParamSharing desig sp c visited = .error i ∧
        ∃ mm ∈ Children.reachAvoidC desig c, mm.mid = i ∧ mm.mid ∉ desig ∧
          ∃ p ∈ mm.ownParamIds, p ∈ sp) ∧
    (¬ OffenseWithin desig sp (Children.reachAvoidC desig c) →
      ∃ v2, Children.checkParamSharing desig sp c visited = .ok v2 ∧
        ∀ x ∈ v2, x ∈ visited ∨ x ∈ (Children.allModulesC c).map Module.mid) := by
  cases c with
  | nil =>
    constructor
    · intro hoff
      obtain ⟨mm, hmm, _⟩ := hoff
      exact absurd hmm (List.not_mem_nil mm)
    · intro _
      exact ⟨visited, rfl, fun x hx => Or.inl hx⟩
  | cons nm m rest =>
    have hmapapp : (Children.allModulesC (Children.cons nm m rest)).map Module.mid
        = (Module.allModules m).map Module.mid
          ++ (Children.allModulesC rest).map Module.mid := by
      simp [Children.allModulesC]
    have hraapp : Children.reachAvoidC desig (Children.cons nm m rest)
        = Module.reachAvoid desig m ++ Children.reachAvoidC desig rest := rfl
    rw [hmapapp] at hdis hnd
    rw [List.nodup_append] at hnd
    have hdism : ∀ x ∈ m.allMids, x ∉ visited := by
      intro x hx
      exact hdis x (List.mem_append.2 (Or.inl hx))
    obtain ⟨ih1m, ih2m⟩ := checkPS_spec desig sp m visited hdism hnd.1
    by_cases hoffm : OffenseWithin desig sp (Module.reachAvoid desig m)
    · obtain ⟨j, hj, mm, hmm, hrest⟩ := ih1m hoffm
      have hres : Children.checkParamSharing desig sp (Children.cons nm m rest) visited
          = .error j := by
        simp [Children.checkParamSharing, hj]
      constructor
      · intro _
        refine ⟨j, hres, mm, ?_, hrest⟩
        rw [hraapp]
        exact List.mem_append.2 (Or.inl hmm)
      · intro hnoff
        exfalso
        apply hnoff
        obtain ⟨mm2, hmm2, hr⟩ := hoffm
        refine ⟨mm2, ?_, hr⟩
        rw [hraapp]
        exact List.mem_append.2 (Or.inl hmm2)
    · obtain ⟨v2, hv2, hbound⟩ := ih2m hoffm
      have hres : Children.checkParamSharing desig sp (Children.cons nm m rest) visited
          = Children.checkParamSharing desig sp rest v2 := by
        simp [Children.checkParamSharing, hv2]
      have hdisrest : ∀ x ∈ (Children.allModulesC rest).map Module.mid, x ∉ v2 := by
        intro x hx hxv
        rcases hbound x hxv with hxvis | hxm
        · exact hdis x (List.mem_append.2 (Or.inr hx)) hxvis
        · exact hnd.2.2 hxm hx
      obtain ⟨ih1r, ih2r⟩ := checkPSC_spec desig sp rest v2 hdisrest hnd.2.1
      constructor
      · intro hoff
        have hoffr : OffenseWithin desig sp (Children.reachAvoidC desig rest) := by
          obtain ⟨mm, hmm, hr⟩ := hoff
          rw [hraapp] at hmm
          rcases List.mem_append.1 hmm with h1 | h2
          · exact absurd ⟨mm, h1, hr⟩ hoffm
          · exact ⟨mm, h2, hr⟩
        obtain ⟨j, hj, mm, hmm, hr⟩ := ih1r hoffr
        refine ⟨j, by rw [hres]; exact hj, mm, ?_, hr⟩
        rw [hraapp]
        exact List.mem_append.2 (Or.inr hmm)
      · intro hnoff
        have hnoffr : ¬ OffenseWithin desig sp (Children.reachAvoidC desig rest) := by
          intro hc
          apply hnoff
          obtain ⟨mm, hmm, hr⟩ := hc
          refine ⟨mm, ?_, hr⟩
          rw [hraapp]
          exact List.mem_append.2 (Or.inr hmm)
        obtain ⟨v3, hv3, hbound3⟩ := ih2r hnoffr
        refine ⟨v3, by rw [hres]; exact hv3, ?_⟩
        intro x hx
        rw [hmapapp]
        rcases hbound3 x hx with hxv2 | hxrest
        · rcases hbound x hxv2 with hvis | hm
          · exact Or.inl hvis
          · exact Or.inr (List.mem_append.2 (Or.inl hm))
        · exact Or.inr (List.mem_append.2 (Or.inr hxrest))

end

/-- C2 (amended): on a module tree (distinct module identities), the
validator passes iff no module it examines — the modules reachable from the
root without entering a designated subtree, all of them non-designated —
*directly owns* a parameter reachable from a designated module; when it
raises, the named module is such an examined module.  (The claim's broader
"reachable from a module outside D" reading is refuted by the
counterexample.) -/
theorem c2_validator_flags_direct_ownership_outside_designated_subtrees
    (model : Module) (modulesToShard : List Module)
    (hnd : model.allMids.Nodup) :
    (legalize_param_sharing_between_modules model modulesToShard = .ok () ↔
      ¬ OffenseWithin (modulesToShard.map Module.mid) (shardParamSet modulesToShard)
          (Module.reachAvoid (modulesToShard.map Module.mid) model)) ∧
    (∀ i, legalize_param_sharing_between_modules model modulesToShard = .error i →
      ∃ mm ∈ Module.reachAvoid (modulesToShard.map Module.mid) model,
        mm.mid = i ∧ mm.mid ∉ modulesToShard.map Module.mid ∧
        ∃ p ∈ mm.ownParamIds, p ∈ shardParamSet modulesToShard) ∧
    (∀ p, p ∈ shardParamSet modulesToShard ↔
      ∃ md ∈ modulesToShard, p ∈ md.paramIds) := by
  have hdis0 : ∀ x ∈ model.allMids, x ∉ ([] : List Nat) :=
    fun x _ h => absurd h (List.not_mem_nil x)
  obtain ⟨h1, h2⟩ := checkPS_spec (modulesToShard.map Module.mid)
    (shardParamSet modulesToShard) model [] hdis0 hnd
  refine ⟨⟨?_, ?_⟩, ?_, fun p => mem_shardParamSet modulesToShard p⟩
  · intro hok hoff
    obtain ⟨i, hi, _⟩ := h1 hoff
    unfold legalize_param_sharing_between_modules at hok
    rw [hi] at hok
    exact Except.noConfusion hok
  · intro hnoff
    obtain ⟨v2, hv2, _⟩ := h2 hnoff
    unfold legalize_param_sharing_between_modules
    rw [hv2]
  · intro i hi
    unfold legalize_param_sharing_between_modules at hi
    by_cases hoff : OffenseWithin (modulesToShard.map Module.mid)
        (shardParamSet modulesToShard)
        (Module.reachAvoid (modulesToShard.map Module.mid) model)
    · obtain ⟨j, hj, mm, hmm, hmid, hr⟩ := h1 hoff
      rw [hj] at hi
      have hji : (Except.error j : Except Nat Unit) = .error i := hi
      injection hji with hji2
      subst hji2
      exact ⟨mm, hmm, hmid, hr⟩
    · obtain ⟨v2, hv2, _⟩ := h2 hoff
      rw [hv2] at hi
      exact Except.noConfusion hi

/-- C2 witness: the amended theorem at the two-module tree whose only child is
designated; no examined module directly owns a designated parameter, so the
validator passes. -/
theorem c2_witness :
    (legalize_param_sharing_between_modules
        (.node 0 [] (.cons "ch" (.node 1 [("w", 7)] .nil) .nil))
        [.node 1 [("w", 7)] .nil] = .ok () ↔
      ¬ OffenseWithin ([Module.node 1 [("w", 7)] .nil].map Module.mid)
          (shardParamSet [.node 1 [("w", 7)] .nil])
          (Module.reachAvoid ([Module.node 1 [("w", 7)] .nil].map Module.mid)
            (.node 0 [] (.cons "ch" (.node 1 [("w", 7)] .nil) .nil)))) ∧
    (∀ i, legalize_param_sharing_between_modules
        (.node 0 [] (.cons "ch" (.node 1 [("w", 7)] .nil) .nil))
        [.node 1 [("w", 7)] .nil] = .error i →
      ∃ mm ∈ Module.reachAvoid ([Module.node 1 [("w", 7)] .nil].map Module.mid)
          (.node 0 [] (.cons "ch" (.node 1 [("w", 7)] .nil) .nil)),
        mm.mid = i ∧ mm.mid ∉ [Module.node 1 [("w", 7)] .nil].map Module.mid ∧
        ∃ p ∈ mm.ownParamIds, p ∈ shardParamSet [.node 1 [("w", 7)] .nil]) ∧
    (∀ p, p ∈ shardParamSet [.node 1 [("w", 7)] .nil] ↔
      ∃ md ∈ [Module.node 1 [("w", 7)] .nil], p ∈ md.paramIds) :=
  c2_validator_flags_direct_ownership_outside_designated_subtrees
    (.node 0 [] (.cons "ch" (.node 1 [("w", 7)] .nil) .nil))
    [.node 1 [("w", 7)] .nil]
    (by decide)

/-- C2 counterexample: parameter 7 is reachable from the designated child
(id 1) and also from the non-designated root (id 0), so the claim demands a
raise — but the validator passes, because the root does not *directly own*
parameter 7. -/
theorem c2_counterexample :
    legalize_param_sharing_between_modules
        (.node 0 [] (.cons "ch" (.node 1 [("w", 7)] .nil) .nil))
        [.node 1 [("w", 7)] .nil] = .ok () ∧
    CrossReachable (.node 0 [] (.cons "ch" (.node 1 [("w", 7)] .nil) .nil))
        [.node 1 [("w", 7)] .nil] :=
  ⟨rfl,
   ⟨7, ⟨.node 1 [("w", 7)] .nil, by decide, by decide⟩,
    ⟨.node 0 [] (.cons "ch" (.node 1 [("w", 7)] .nil) .nil), by decide, by decide,
     by decide⟩⟩⟩

end FSDP2
